import Mathlib

/-
  Shallow embedding of the `worthe_signals` library (src/complex.rs,
  src/sinusoid.rs, src/num_traits.rs) and verification of its
  specification.

  Modelling conventions:
  * The generic scalar `T` of `Complex<T>` is kept generic; the Rust
    trait bounds (`ArithmeticOps`, `SignedArithmeticOps`, …) become the
    corresponding Lean typeclass binders (`Add T`, `Neg T`, …).
  * Rust's `i32` (the scalar of the library's quickcheck tests) is
    modelled, inside its safe range where no overflow occurs, by the
    mathematical integers with Rust's truncating division `Int.tdiv`.
  * The float scalar is modelled by the exact reals; the scalar
    primitives `cos`, `sin`, `sqrt`, `atan2` become `Real.cos`,
    `Real.sin`, `Real.sqrt` and the argument of a point in the plane.
    Rust's float `%` is `a - b * trunc(a / b)` (remainder with the
    dividend's sign).
  * `Result<T, E>` becomes `Except E T` (`Except.ok` / `Except.error`).
  * `sample_range`'s `u16` loop counter overflows (a panic in debug
    builds) when incremented past 65535; the embedding returns an
    `Option (List ℝ)` and models that panic as `none`.
-/

namespace worthe_signals

/-- The scalar primitive `Trig::atan2` for real scalars: `atan2 y x` is the
standard two-argument arctangent, the angle of the point `(x, y)` in
`(-π, π]`, given here by the argument of the corresponding point of the
complex plane. -/
noncomputable def atan2 (y x : ℝ) : ℝ := Complex.arg ⟨x, y⟩

/-- Truncation of a real number toward zero, as Rust float casts and float
remainder use. -/
noncomputable def trunc (x : ℝ) : ℤ := if 0 ≤ x then ⌊x⌋ else ⌈x⌉

/-- Rust's `%` on floats: the remainder of truncating division,
`a - b * trunc (a / b)`, with the sign of the dividend. -/
noncomputable def fmod (a b : ℝ) : ℝ := a - b * (trunc (a / b) : ℝ)

end worthe_signals

namespace worthe_signals

/-- `Complex<T>` from src/complex.rs: `{ real: T, imag: T }`. -/
structure Complex (T : Type) where
  real : T
  imag : T
deriving DecidableEq

namespace Complex

/-- `Complex::new`. -/
def new {T : Type} (real imag : T) : Complex T := ⟨real, imag⟩

/-- `Complex::conjugate` (requires `SignedArithmeticOps`): `(real, -imag)`. -/
def conjugate {T : Type} [Neg T] (c : Complex T) : Complex T :=
  Complex.new c.real (-c.imag)

/-- `Add for Complex<T>`: componentwise addition. -/
def add {T : Type} [Add T] (c1 c2 : Complex T) : Complex T :=
  Complex.new (c1.real + c2.real) (c1.imag + c2.imag)

instance {T : Type} [Add T] : Add (Complex T) := ⟨Complex.add⟩

/-- `Sub for Complex<T>`: componentwise subtraction. -/
def sub {T : Type} [Sub T] (c1 c2 : Complex T) : Complex T :=
  Complex.new (c1.real - c2.real) (c1.imag - c2.imag)

instance {T : Type} [Sub T] : Sub (Complex T) := ⟨Complex.sub⟩

/-- `Mul for Complex<T>`: `(ac - bd, ad + bc)`. -/
def mul {T : Type} [Add T] [Sub T] [Mul T] (c1 c2 : Complex T) : Complex T :=
  Complex.new ((c1.real * c2.real) - (c1.imag * c2.imag))
    ((c1.real * c2.imag) + (c1.imag * c2.real))

instance {T : Type} [Add T] [Sub T] [Mul T] : Mul (Complex T) := ⟨Complex.mul⟩

/-- `Div for Complex<T>` (requires `SignedArithmeticOps`): multiply numerator
and denominator by the denominator's complex conjugate, giving a pure real
denominator, then divide each component of the numerator by it. -/
def div {T : Type} [Add T] [Sub T] [Mul T] [Neg T] [Div T]
    (c1 c2 : Complex T) : Complex T :=
  let other_conj := c2.conjugate
  let num := c1 * other_conj
  let denom := (c2 * other_conj).real
  Complex.new (num.real / denom) (num.imag / denom)

instance {T : Type} [Add T] [Sub T] [Mul T] [Neg T] [Div T] :
    Div (Complex T) := ⟨Complex.div⟩

/-- The specification's wording of division, for comparison with
`Complex.div`: the componentwise quotient of the numerator
`self × conjugate(other)` by the scalar denominator
`(other × conjugate(other)).real`. -/
def div_spec {T : Type} [Add T] [Sub T] [Mul T] [Neg T] [Div T]
    (c1 c2 : Complex T) : Complex T :=
  ⟨(c1 * c2.conjugate).real / (c2 * c2.conjugate).real,
   (c1 * c2.conjugate).imag / (c2 * c2.conjugate).real⟩

/-- `Neg for Complex<T>`: `(-real, -imag)`. -/
def neg {T : Type} [Neg T] (c : Complex T) : Complex T :=
  Complex.new (-c.real) (-c.imag)

instance {T : Type} [Neg T] : Neg (Complex T) := ⟨Complex.neg⟩

/-- `Complex::magnitude` at the real scalar: `sqrt(real² + imag²)`
(`pow(2)` is the integer power of the `Pow` capability). -/
noncomputable def magnitude (c : Complex ℝ) : ℝ :=
  Real.sqrt (c.real ^ 2 + c.imag ^ 2)

/-- `Complex::angle` at the real scalar: `imag.atan2(real)`. -/
noncomputable def angle (c : Complex ℝ) : ℝ := atan2 c.imag c.real

/-- `Complex::from_polar` at the real scalar: `(r·cos θ, r·sin θ)`. -/
noncomputable def from_polar (r theta : ℝ) : Complex ℝ :=
  Complex.new (r * Real.cos theta) (r * Real.sin theta)

/-- `Complex::to_polar` at the real scalar: `(magnitude, angle)`. -/
noncomputable def to_polar (c : Complex ℝ) : ℝ × ℝ := (c.magnitude, c.angle)

end Complex

/-- Rust's `i32` scalar inside its safe range (the range where none of the
operations below overflow, as the claims assume): the mathematical integers,
with Rust's arithmetic; division truncates toward zero. -/
structure I32 where
  val : ℤ
deriving DecidableEq

instance : Add I32 := ⟨fun a b => ⟨a.val + b.val⟩⟩
instance : Sub I32 := ⟨fun a b => ⟨a.val - b.val⟩⟩
instance : Mul I32 := ⟨fun a b => ⟨a.val * b.val⟩⟩
instance : Neg I32 := ⟨fun a => ⟨-a.val⟩⟩
instance : Div I32 := ⟨fun a b => ⟨a.val.tdiv b.val⟩⟩

end worthe_signals

namespace worthe_signals

/-- `Sinusoid<T>` from src/sinusoid.rs at the real scalar:
`{ amplitude, frequency, phase }`, representing `A·cos(2πf·t + θ)`. -/
structure Sinusoid where
  amplitude : ℝ
  frequency : ℝ
  phase : ℝ

/-- `AddSinusoidError`: the library's single error kind. -/
inductive AddSinusoidError where
  | DifferentFrequency
deriving DecidableEq

namespace Sinusoid

/-- `Sinusoid::new`. -/
def new (amplitude frequency phase : ℝ) : Sinusoid :=
  ⟨amplitude, frequency, phase⟩

/-- `Sinusoid::period`: `frequency.recip()`. -/
noncomputable def period (s : Sinusoid) : ℝ := s.frequency⁻¹

/-- `Sinusoid::to_phasor`: `Complex::from_polar(amplitude, phase)`;
the frequency is discarded. -/
noncomputable def to_phasor (s : Sinusoid) : Complex ℝ :=
  Complex.from_polar s.amplitude s.phase

/-- `Sinusoid::add`: errors with `DifferentFrequency` when the frequencies
differ, otherwise adds the two phasors and converts the sum back to polar
form, keeping the shared frequency. -/
noncomputable def add (s other : Sinusoid) :
    Except AddSinusoidError Sinusoid :=
  if s.frequency ≠ other.frequency then
    Except.error AddSinusoidError.DifferentFrequency
  else
    let frequency := s.frequency
    let self_phasor := s.to_phasor
    let other_phasor := other.to_phasor
    let combined := self_phasor + other_phasor
    let p := combined.to_polar
    Except.ok (Sinusoid.new p.1 frequency p.2)

/-- `Sinusoid::radial_frequency`: `two_pi() * frequency`. -/
noncomputable def radial_frequency (s : Sinusoid) : ℝ :=
  (2 * Real.pi) * s.frequency

/-- `Sinusoid::sample`:
`(radial_frequency * (t % period) + phase).cos() * amplitude`. -/
noncomputable def sample (s : Sinusoid) (t : ℝ) : ℝ :=
  Real.cos (s.radial_frequency * (fmod t s.period) + s.phase) * s.amplitude

/-- The loop of `Sinusoid::sample_range`, entered with counter value `i`.
The counter is a `u16`; in the source, after the sample at `i = 65535` is
pushed, `i += 1` overflows (a panic in debug builds), modelled as `none`. -/
noncomputable def sample_range_loop (s : Sinusoid) (start e rate : ℝ)
    (i : ℕ) : Option (List ℝ) :=
  if e ≤ start + (i : ℝ) / rate then
    some []
  else if _h : i < 65535 then
    (sample_range_loop s start e rate (i + 1)).map
      (fun rest => s.sample (start + (i : ℝ) / rate) :: rest)
  else
    none
termination_by 65536 - i
decreasing_by omega

/-- `Sinusoid::sample_range(start, end, sample_rate)`: samples at
`t = start + i/sample_rate` until the first `t ≥ end`, collected into a
vector; `none` models the `u16` counter overflowing. -/
noncomputable def sample_range (s : Sinusoid) (start e rate : ℝ) :
    Option (List ℝ) :=
  sample_range_loop s start e rate 0

end Sinusoid

end worthe_signals

namespace worthe_signals

/- Helper lemmas shared by the claim theorems. -/

lemma i32_add_comm (x y : I32) : x + y = y + x :=
  congrArg I32.mk (Int.add_comm x.val y.val)

lemma i32_neg_neg (x : I32) : - -x = x :=
  congrArg I32.mk (neg_neg x.val)

lemma int_denom_ne_zero {c d : ℤ} (h : ¬(c = 0 ∧ d = 0)) :
    c * c - d * -d ≠ 0 := by
  intro h0
  exact h ⟨by nlinarith [sq_nonneg c, sq_nonneg d],
           by nlinarith [sq_nonneg c, sq_nonneg d]⟩

lemma real_denom_ne_zero {c d : ℝ} (h : ¬(c = 0 ∧ d = 0)) :
    c * c - d * -d ≠ 0 := by
  intro h0
  exact h ⟨by nlinarith [sq_nonneg c, sq_nonneg d],
           by nlinarith [sq_nonneg c, sq_nonneg d]⟩

/-- C7: Complex addition is commutative whenever the scalar's addition is. -/
theorem complex_add_commutative :
    ∀ (T : Type) [Add T], (∀ x y : T, x + y = y + x) →
      ∀ c1 c2 : Complex T, c1 + c2 = c2 + c1 := by
  intro T _ hcomm c1 c2
  show Complex.add c1 c2 = Complex.add c2 c1
  simp only [Complex.add, Complex.new, Complex.mk.injEq]
  exact ⟨hcomm c1.real c2.real, hcomm c1.imag c2.imag⟩

/-- Witness for C7 at the i32 scalar: `(1+5i) + (-3+2i) = (-3+2i) + (1+5i)`. -/
theorem complex_add_commutative_witness :
    (⟨⟨1⟩, ⟨5⟩⟩ : Complex I32) + ⟨⟨-3⟩, ⟨2⟩⟩ =
      (⟨⟨-3⟩, ⟨2⟩⟩ : Complex I32) + ⟨⟨1⟩, ⟨5⟩⟩ :=
  complex_add_commutative I32 i32_add_comm _ _

/-- C10: conjugation is an involution whenever the scalar's negation is,
and it never changes the real component. -/
theorem conjugate_involution :
    (∀ (T : Type) [Neg T], (∀ x : T, - -x = x) →
        ∀ c : Complex T, c.conjugate.conjugate = c) ∧
    (∀ (T : Type) [Neg T] (c : Complex T), c.conjugate.real = c.real) := by
  constructor
  · intro T _ hneg c
    cases c with
    | mk r i => simp only [Complex.conjugate, Complex.new, hneg]
  · intro T _ c
    rfl

/-- Witness for C10 at the i32 scalar: conjugating `3+4i` twice gives it
back. -/
theorem conjugate_involution_witness :
    (⟨⟨3⟩, ⟨4⟩⟩ : Complex I32).conjugate.conjugate = ⟨⟨3⟩, ⟨4⟩⟩ :=
  conjugate_involution.1 I32 i32_neg_neg _

/-- C4: complex division is the componentwise quotient of
`self × conjugate(other)` by the scalar `(other × conjugate(other)).real`,
with no zero-denominator check, and `(6+8i) / (3+4i) = 2` at the i32
scalar. -/
theorem complex_div_formula :
    (∀ (T : Type) [Add T] [Sub T] [Mul T] [Neg T] [Div T]
        (c1 c2 : Complex T), c1 / c2 = Complex.div_spec c1 c2) ∧
    (⟨⟨6⟩, ⟨8⟩⟩ : Complex I32) / ⟨⟨3⟩, ⟨4⟩⟩ = ⟨⟨2⟩, ⟨0⟩⟩ :=
  ⟨fun _ _ _ _ _ _ _ _ => rfl, by decide⟩

/-- C2: `Sinusoid::add` errors with `DifferentFrequency` exactly when the
frequencies differ under exact equality, succeeds otherwise, and
`DifferentFrequency` is the only error it can return. -/
theorem sinusoid_add_error_iff :
    (∀ a b : Sinusoid,
        a.add b = Except.error AddSinusoidError.DifferentFrequency ↔
          a.frequency ≠ b.frequency) ∧
    (∀ a b : Sinusoid, a.frequency = b.frequency →
        ∃ s, a.add b = Except.ok s) ∧
    (∀ (a b : Sinusoid) (e : AddSinusoidError),
        a.add b = Except.error e → e = AddSinusoidError.DifferentFrequency) := by
  refine ⟨fun a b => ?_, fun a b h => ?_, fun a b e _ => ?_⟩
  · by_cases h : a.frequency = b.frequency <;> simp [Sinusoid.add, h]
  · exact ⟨Sinusoid.new ((a.to_phasor + b.to_phasor).to_polar.1) a.frequency
      ((a.to_phasor + b.to_phasor).to_polar.2), by simp [Sinusoid.add, h]⟩
  · cases e
    rfl

/-- Witness for C2: the spec's example `Sinusoid(1, 0.5, 0).add
(Sinusoid(1, 2, 0))` fails with `DifferentFrequency`. -/
theorem sinusoid_add_error_iff_witness :
    (Sinusoid.new 1 (1/2) 0).add (Sinusoid.new 1 2 0) =
      Except.error AddSinusoidError.DifferentFrequency :=
  (sinusoid_add_error_iff.1 _ _).mpr (by norm_num [Sinusoid.new])

/-- C6: multiplying and then dividing by a nonzero complex value is the
identity, at the exact-integer scalar (with each component of the numerator
exactly divisible by `|c2|²`) and at the exact-real scalar. -/
theorem complex_mul_div_cancel :
    (∀ c1 c2 : Complex I32, c2 ≠ ⟨⟨0⟩, ⟨0⟩⟩ →
        (c1 * c2) / c2 = c1 ∧
        (c2 * c2.conjugate).real.val ∣ ((c1 * c2) * c2.conjugate).real.val ∧
        (c2 * c2.conjugate).real.val ∣ ((c1 * c2) * c2.conjugate).imag.val) ∧
    (∀ c1 c2 : Complex ℝ, c2 ≠ ⟨0, 0⟩ → (c1 * c2) / c2 = c1) := by
  constructor
  · intro c1 c2 hne
    obtain ⟨⟨a⟩, ⟨b⟩⟩ := c1
    obtain ⟨⟨c⟩, ⟨d⟩⟩ := c2
    have h0 : c * c - d * -d ≠ 0 :=
      int_denom_ne_zero (fun h => hne (by rw [h.1, h.2]))
    refine ⟨?_, ?_, ?_⟩
    · show (⟨⟨((a*c - b*d)*c - (a*d + b*c)*(-d)).tdiv (c*c - d*(-d))⟩,
            ⟨((a*c - b*d)*(-d) + (a*d + b*c)*c).tdiv (c*c - d*(-d))⟩⟩ :
          Complex I32) = ⟨⟨a⟩, ⟨b⟩⟩
      simp only [Complex.mk.injEq, I32.mk.injEq]
      constructor
      · rw [show ((a*c - b*d)*c - (a*d + b*c)*(-d)) = a * (c*c - d*(-d))
          from by ring]
        exact Int.mul_tdiv_cancel a h0
      · rw [show ((a*c - b*d)*(-d) + (a*d + b*c)*c) = b * (c*c - d*(-d))
          from by ring]
        exact Int.mul_tdiv_cancel b h0
    · show (c*c - d*(-d)) ∣ ((a*c - b*d)*c - (a*d + b*c)*(-d))
      exact ⟨a, by ring⟩
    · show (c*c - d*(-d)) ∣ ((a*c - b*d)*(-d) + (a*d + b*c)*c)
      exact ⟨b, by ring⟩
  · intro c1 c2 hne
    obtain ⟨a, b⟩ := c1
    obtain ⟨c, d⟩ := c2
    have h0 : c * c - d * -d ≠ 0 :=
      real_denom_ne_zero (fun h => hne (by rw [h.1, h.2]))
    show (⟨((a*c - b*d)*c - (a*d + b*c)*(-d)) / (c*c - d*(-d)),
          ((a*c - b*d)*(-d) + (a*d + b*c)*c) / (c*c - d*(-d))⟩ :
        Complex ℝ) = ⟨a, b⟩
    simp only [Complex.mk.injEq]
    constructor
    · rw [show ((a*c - b*d)*c - (a*d + b*c)*(-d)) = a * (c*c - d*(-d))
        from by ring]
      exact mul_div_cancel_right₀ a h0
    · rw [show ((a*c - b*d)*(-d) + (a*d + b*c)*c) = b * (c*c - d*(-d))
        from by ring]
      exact mul_div_cancel_right₀ b h0

/-- Witness for C6 at the i32 scalar with `c1 = 1+2i`, `c2 = 3+4i`. -/
theorem complex_mul_div_cancel_witness :
    ((⟨⟨1⟩, ⟨2⟩⟩ : Complex I32) * ⟨⟨3⟩, ⟨4⟩⟩) / ⟨⟨3⟩, ⟨4⟩⟩ = ⟨⟨1⟩, ⟨2⟩⟩ ∧
    ((⟨⟨3⟩, ⟨4⟩⟩ : Complex I32) *
        Complex.conjugate (⟨⟨3⟩, ⟨4⟩⟩ : Complex I32)).real.val ∣
      (((⟨⟨1⟩, ⟨2⟩⟩ : Complex I32) * ⟨⟨3⟩, ⟨4⟩⟩) *
        Complex.conjugate (⟨⟨3⟩, ⟨4⟩⟩ : Complex I32)).real.val ∧
    ((⟨⟨3⟩, ⟨4⟩⟩ : Complex I32) *
        Complex.conjugate (⟨⟨3⟩, ⟨4⟩⟩ : Complex I32)).real.val ∣
      (((⟨⟨1⟩, ⟨2⟩⟩ : Complex I32) * ⟨⟨3⟩, ⟨4⟩⟩) *
        Complex.conjugate (⟨⟨3⟩, ⟨4⟩⟩ : Complex I32)).imag.val :=
  complex_mul_div_cancel.1 ⟨⟨1⟩, ⟨2⟩⟩ ⟨⟨3⟩, ⟨4⟩⟩ (by decide)


lemma to_phasor_m3 : (Sinusoid.new (-3) 1 0).to_phasor = ⟨-3, 0⟩ := by
  show Complex.from_polar (-3) 0 = _
  simp [Complex.from_polar, Complex.new]

lemma to_phasor_4 :
    (Sinusoid.new 4 1 (-(Real.pi/2))).to_phasor = ⟨0, -4⟩ := by
  show Complex.from_polar 4 (-(Real.pi/2)) = _
  simp [Complex.from_polar, Complex.new, Real.cos_pi_div_two,
    Real.sin_pi_div_two]

lemma magnitude_m3_m4 : (⟨-3, -4⟩ : Complex ℝ).magnitude = 5 := by
  show Real.sqrt ((-3:ℝ) ^ 2 + (-4:ℝ) ^ 2) = 5
  rw [show ((-3:ℝ) ^ 2 + (-4:ℝ) ^ 2) = 5 ^ 2 by norm_num]
  exact Real.sqrt_sq (by norm_num)

lemma atan2_m4_m3 : atan2 (-4) (-3) = Real.arcsin (4/5) - Real.pi := by
  show Complex.arg ⟨-3, -4⟩ = _
  rw [Complex.arg_of_re_neg_of_im_neg (by norm_num) (by norm_num)]
  have habs : Complex.abs ⟨-3, -4⟩ = 5 := by
    rw [Complex.abs_apply, Complex.normSq_mk]
    rw [show ((-3:ℝ) * -3 + (-4:ℝ) * -4) = 5 ^ 2 by norm_num]
    exact Real.sqrt_sq (by norm_num)
  rw [habs]
  norm_num

lemma sqrt_two_div_two_lt : Real.sqrt 2 / 2 < 4 / 5 := by
  nlinarith [Real.sq_sqrt (show (0:ℝ) ≤ 2 by norm_num), Real.sqrt_nonneg 2]

lemma arcsin_four_fifths_gt : Real.pi / 4 < Real.arcsin (4/5) := by
  have h1 : Real.pi / 4 = Real.arcsin (Real.sqrt 2 / 2) := by
    rw [← Real.sin_pi_div_four]
    rw [Real.arcsin_sin (by linarith [Real.pi_pos]) (by linarith [Real.pi_pos])]
  rw [h1]
  apply Real.strictMonoOn_arcsin
  · constructor
    · nlinarith [Real.sqrt_nonneg 2]
    · nlinarith [Real.sq_sqrt (show (0:ℝ) ≤ 2 by norm_num),
        Real.sqrt_nonneg 2]
  · constructor <;> norm_num
  · exact sqrt_two_div_two_lt

/-- C1: with equal frequencies, `Sinusoid::add` returns `Ok` of the polar
form of the sum of the two phasors, with the shared frequency; concretely,
`Sinusoid(-3, 1, 0).add(Sinusoid(4, 1, -π/2))` is
`Ok(Sinusoid(5, 1, atan2(-4, -3)))`, and that phase lies strictly between
`-3π/4 ≈ -2.36` and `-π/2 ≈ -1.57` (it is approximately `-2.2143`). -/
theorem sinusoid_add_phasor :
    (∀ a b : Sinusoid, a.frequency = b.frequency →
        a.add b = Except.ok (Sinusoid.new
          ((a.to_phasor + b.to_phasor).to_polar.1) a.frequency
          ((a.to_phasor + b.to_phasor).to_polar.2))) ∧
    (Sinusoid.new (-3) 1 0).add (Sinusoid.new 4 1 (-(Real.pi/2))) =
      Except.ok (Sinusoid.new 5 1 (atan2 (-4) (-3))) ∧
    -(3 * Real.pi / 4) < atan2 (-4) (-3) ∧
    atan2 (-4) (-3) < -(Real.pi / 2) := by
  have hgen : ∀ a b : Sinusoid, a.frequency = b.frequency →
      a.add b = Except.ok (Sinusoid.new
        ((a.to_phasor + b.to_phasor).to_polar.1) a.frequency
        ((a.to_phasor + b.to_phasor).to_polar.2)) := by
    intro a b h
    simp [Sinusoid.add, h]
  refine ⟨hgen, ?_, ?_, ?_⟩
  · rw [hgen (Sinusoid.new (-3) 1 0) (Sinusoid.new 4 1 (-(Real.pi/2))) rfl]
    have hsum : (Sinusoid.new (-3) 1 0).to_phasor +
        (Sinusoid.new 4 1 (-(Real.pi/2))).to_phasor = (⟨-3, -4⟩ : Complex ℝ) := by
      rw [to_phasor_m3, to_phasor_4]
      show Complex.add _ _ = _
      simp [Complex.add, Complex.new]
    rw [hsum]
    show Except.ok (Sinusoid.new ((⟨-3, -4⟩ : Complex ℝ).magnitude) _
      ((⟨-3, -4⟩ : Complex ℝ).angle)) = _
    rw [magnitude_m3_m4]
    rfl
  · rw [atan2_m4_m3]
    have := arcsin_four_fifths_gt
    linarith
  · rw [atan2_m4_m3]
    have := Real.arcsin_lt_pi_div_two.mpr (show (4:ℝ)/5 < 1 by norm_num)
    linarith

/-- Witness for C1's general part at `Sinusoid(1,2,3)` and `Sinusoid(4,2,5)`. -/
theorem sinusoid_add_phasor_witness :
    (Sinusoid.new 1 2 3).frequency = (Sinusoid.new 4 2 5).frequency ∧
    (Sinusoid.new 1 2 3).add (Sinusoid.new 4 2 5) =
      Except.ok (Sinusoid.new
        (((Sinusoid.new 1 2 3).to_phasor +
            (Sinusoid.new 4 2 5).to_phasor).to_polar.1)
        ((Sinusoid.new 1 2 3).frequency)
        (((Sinusoid.new 1 2 3).to_phasor +
            (Sinusoid.new 4 2 5).to_phasor).to_polar.2)) :=
  ⟨rfl, sinusoid_add_phasor.1 _ _ rfl⟩

/-- C9: `Sinusoid::add` is commutative on equal-frequency operands, because
complex (phasor) addition is commutative. -/
theorem sinusoid_add_comm (a b : Sinusoid)
    (h : a.frequency = b.frequency) : a.add b = b.add a := by
  have hcomb : a.to_phasor + b.to_phasor = b.to_phasor + a.to_phasor := by
    show Complex.add _ _ = Complex.add _ _
    simp only [Complex.add, Complex.new, Complex.mk.injEq]
    exact ⟨add_comm _ _, add_comm _ _⟩
  simp [Sinusoid.add, h, hcomb]

/-- Witness for C9 at `Sinusoid(1,1,0)` and `Sinusoid(2,1,3)`. -/
theorem sinusoid_add_comm_witness :
    (Sinusoid.new 1 1 0).add (Sinusoid.new 2 1 3) =
      (Sinusoid.new 2 1 3).add (Sinusoid.new 1 1 0) :=
  sinusoid_add_comm _ _ rfl


/-- If every index from `i` up to the `u16` limit still samples before
`e`, the loop hits the counter overflow and returns `none`. -/
lemma sample_range_loop_none (s : Sinusoid) (start e rate : ℝ)
    (hall : ∀ j : ℕ, j ≤ 65535 → start + (j:ℝ)/rate < e) :
    ∀ (m i : ℕ), i + m = 65535 →
      Sinusoid.sample_range_loop s start e rate i = none := by
  intro m
  induction m with
  | zero =>
    intro i hi
    unfold Sinusoid.sample_range_loop
    rw [if_neg (not_le.mpr (hall i (by omega)))]
    rw [dif_neg (by omega)]
  | succ n ih =>
    intro i hi
    unfold Sinusoid.sample_range_loop
    rw [if_neg (not_le.mpr (hall i (by omega)))]
    rw [dif_pos (by omega)]
    rw [ih (i+1) (by omega)]
    rfl

/-- Any list the loop returns from counter value `i` has at most
`65536 - i` elements. -/
lemma sample_range_loop_length (s : Sinusoid) (start e rate : ℝ) :
    ∀ (m i : ℕ) (l : List ℝ), 65536 - i ≤ m →
      Sinusoid.sample_range_loop s start e rate i = some l →
      l.length ≤ 65536 - i := by
  intro m
  induction m with
  | zero =>
    intro i l h1 h2
    unfold Sinusoid.sample_range_loop at h2
    by_cases hc : e ≤ start + (i:ℝ)/rate
    · rw [if_pos hc] at h2
      cases h2
      simp
    · rw [if_neg hc, dif_neg (by omega)] at h2
      cases h2
  | succ n ih =>
    intro i l h1 h2
    unfold Sinusoid.sample_range_loop at h2
    by_cases hc : e ≤ start + (i:ℝ)/rate
    · rw [if_pos hc] at h2
      cases h2
      simp
    · rw [if_neg hc] at h2
      by_cases hi : i < 65535
      · rw [dif_pos hi] at h2
        cases hl : Sinusoid.sample_range_loop s start e rate (i+1) with
        | none =>
          rw [hl] at h2
          cases h2
        | some l2 =>
          rw [hl] at h2
          simp only [Option.map_some'] at h2
          cases h2
          have := ih (i+1) l2 (by omega) hl
          simp only [List.length_cons]
          omega
      · rw [dif_neg hi] at h2
        cases h2

/-- When the loop, started at counter value `i`, has exactly `k` sample
points left before the first `t ≥ e`, and `i + k` stays within the `u16`
range, it returns those `k` samples. -/
lemma sample_range_loop_eq (s : Sinusoid) (start e rate : ℝ) (k : ℕ) :
    ∀ i : ℕ, i + k ≤ 65535 →
      (∀ j : ℕ, i ≤ j → j < i + k → start + (j:ℝ)/rate < e) →
      e ≤ start + ((i + k : ℕ):ℝ)/rate →
      Sinusoid.sample_range_loop s start e rate i =
        some ((List.range k).map
          fun j => s.sample (start + ((i + j : ℕ):ℝ)/rate)) := by
  induction k with
  | zero =>
    intro i hle hlt hend
    unfold Sinusoid.sample_range_loop
    rw [if_pos (by simpa using hend)]
    simp
  | succ n ih =>
    intro i hle hlt hend
    unfold Sinusoid.sample_range_loop
    rw [if_neg (not_le.mpr (hlt i le_rfl (by omega)))]
    rw [dif_pos (show i < 65535 by omega)]
    rw [ih (i+1) (by omega) (fun j hj1 hj2 => hlt j (by omega) (by omega))
      (by rw [show i + 1 + n = i + (n + 1) by omega]; exact hend)]
    simp only [Option.map_some', Option.some.injEq]
    rw [List.range_succ_eq_map, List.map_cons, List.map_map]
    congr 1
    apply List.map_congr_left
    intro j _
    dsimp only [Function.comp_apply]
    rw [show i + 1 + j = i + Nat.succ j from by omega]
/-- C3 counterexample: at the well-formed input `start = 0`, `end = 70000`,
`sample_rate = 1` — specified length `ceil((70000-0)*1) = 70000` — the code
does not return the specified 70000-sample sequence: the `u16` counter
overflows (modelled as `none`). -/
theorem sample_range_spec_counterexample :
    (0:ℝ) < 1 ∧ (0:ℝ) < 70000 ∧ ⌈((70000:ℝ) - 0) * 1⌉₊ = 70000 ∧
    Sinusoid.sample_range (Sinusoid.new 1 1 0) 0 70000 1 = none := by
  refine ⟨by norm_num, by norm_num, ?_, ?_⟩
  · rw [show ((70000:ℝ) - 0) * 1 = ((70000:ℕ):ℝ) by norm_num]
    rw [Nat.ceil_natCast]
  · unfold Sinusoid.sample_range
    apply sample_range_loop_none _ _ _ _ ?_ 65535 0 (by omega)
    intro j hj
    have hjr : (j:ℝ) ≤ 65535 := by exact_mod_cast hj
    norm_num
    linarith

/-- C3 (amended): for `sample_rate > 0`, `end > start` and
`ceil((end - start) · sample_rate) ≤ 65535` (so that the `u16` loop counter
cannot overflow), `sample_range` returns exactly the samples at
`t = start + i/sample_rate` for `i < ceil((end - start) · sample_rate)`,
a sequence of that length. -/
theorem sample_range_spec_bounded :
    ∀ (s : Sinusoid) (start e rate : ℝ), 0 < rate → start < e →
      ⌈(e - start) * rate⌉₊ ≤ 65535 →
      s.sample_range start e rate =
        some ((List.range ⌈(e - start) * rate⌉₊).map
          fun (i : ℕ) => s.sample (start + (i:ℝ)/rate)) ∧
      ((List.range ⌈(e - start) * rate⌉₊).map
          fun (i : ℕ) => s.sample (start + (i:ℝ)/rate)).length =
        ⌈(e - start) * rate⌉₊ := by
  intro s start e rate hr hse hn
  refine ⟨?_, by simp⟩
  unfold Sinusoid.sample_range
  rw [sample_range_loop_eq s start e rate (⌈(e - start) * rate⌉₊) 0
    (by omega) ?hlt ?hend]
  case hlt =>
    intro j _ hj
    have hj2 : (j:ℝ) < (e - start) * rate := Nat.lt_ceil.mp (by omega)
    have hd : (j:ℝ)/rate < e - start := (div_lt_iff₀ hr).mpr hj2
    linarith
  case hend =>
    have h1 : (e - start) * rate ≤ ((0 + ⌈(e - start) * rate⌉₊ : ℕ):ℝ) := by
      simpa using Nat.le_ceil ((e - start) * rate)
    have h2 : e - start ≤ ((0 + ⌈(e - start) * rate⌉₊ : ℕ):ℝ)/rate :=
      (le_div_iff₀ hr).mpr h1
    linarith
  congr 1
  apply List.map_congr_left
  intro j _
  dsimp only
  rw [show 0 + j = j from by omega]

/-- Witness for C3 (amended) at `Sinusoid(1,1,0)`, `start = 0`, `end = 1`,
`sample_rate = 2` (two samples). -/
theorem sample_range_spec_bounded_witness :
    (0:ℝ) < 2 ∧ (0:ℝ) < 1 ∧ ⌈((1:ℝ) - 0) * 2⌉₊ ≤ 65535 ∧
    (Sinusoid.new 1 1 0).sample_range 0 1 2 =
      some ((List.range ⌈((1:ℝ) - 0) * 2⌉₊).map
        fun (i : ℕ) => (Sinusoid.new 1 1 0).sample (0 + (i:ℝ)/2)) := by
  have hc : ⌈((1:ℝ) - 0) * 2⌉₊ ≤ 65535 := by
    rw [show ((1:ℝ) - 0) * 2 = ((2:ℕ):ℝ) by norm_num, Nat.ceil_natCast]
    omega
  exact ⟨by norm_num, by norm_num, hc,
    (sample_range_spec_bounded (Sinusoid.new 1 1 0) 0 1 2 (by norm_num)
      (by norm_num) hc).1⟩

/-- C8: `sample_range` counts with a `u16`: any returned sequence has at
most 65536 elements, and on well-formed inputs whose specified length
exceeds 65536 the counter increment overflows (modelled as `none`) instead
of producing the specified sequence. -/
theorem sample_range_u16_overflow :
    (∀ (s : Sinusoid) (start e rate : ℝ) (l : List ℝ),
        s.sample_range start e rate = some l → l.length ≤ 65536) ∧
    (∀ (s : Sinusoid) (start e rate : ℝ), 0 < rate → start < e →
        65536 < ⌈(e - start) * rate⌉₊ →
        s.sample_range start e rate = none) := by
  constructor
  · intro s start e rate l h
    have := sample_range_loop_length s start e rate 65536 0 l (by omega) h
    omega
  · intro s start e rate hr _hse hceil
    unfold Sinusoid.sample_range
    apply sample_range_loop_none _ _ _ _ ?_ 65535 0 (by omega)
    intro j hj
    have hx : (65536:ℝ) < (e - start) * rate := by
      exact_mod_cast Nat.lt_ceil.mp hceil
    have hjr : (j:ℝ) ≤ 65535 := by exact_mod_cast hj
    have hj2 : (j:ℝ) < (e - start) * rate := by linarith
    have hd : (j:ℝ)/rate < e - start := (div_lt_iff₀ hr).mpr hj2
    linarith

/-- Witness for C8's overflow part at `start = 0`, `end = 70000`,
`sample_rate = 1`. -/
theorem sample_range_u16_overflow_witness :
    (0:ℝ) < 1 ∧ (0:ℝ) < 70000 ∧ 65536 < ⌈((70000:ℝ) - 0) * 1⌉₊ ∧
    (Sinusoid.new 2 1 0).sample_range 0 70000 1 = none := by
  have hc : 65536 < ⌈((70000:ℝ) - 0) * 1⌉₊ := by
    rw [show ((70000:ℝ) - 0) * 1 = ((70000:ℕ):ℝ) by norm_num,
      Nat.ceil_natCast]
    omega
  exact ⟨by norm_num, by norm_num, hc,
    sample_range_u16_overflow.2 (Sinusoid.new 2 1 0) 0 70000 1 (by norm_num)
      (by norm_num) hc⟩

/-- C5: `sample(t)` is `amplitude · cos(radial_frequency · (t mod period)
+ phase)`, and for nonzero frequency the modulo does not change the value
in exact arithmetic: it also equals
`amplitude · cos(2π · frequency · t + phase)`. -/
theorem sinusoid_sample_formula :
    ∀ (s : Sinusoid) (t : ℝ), s.frequency ≠ 0 →
      s.sample t = s.amplitude *
          Real.cos (s.radial_frequency * fmod t s.period + s.phase) ∧
      s.sample t = s.amplitude *
          Real.cos (2 * Real.pi * s.frequency * t + s.phase) := by
  intro s t hf
  constructor
  · exact mul_comm _ _
  · unfold Sinusoid.sample fmod Sinusoid.radial_frequency Sinusoid.period
    rw [show (2 * Real.pi) * s.frequency *
          (t - s.frequency⁻¹ * ((trunc (t / s.frequency⁻¹)):ℝ)) + s.phase
        = (2 * Real.pi * s.frequency * t + s.phase) -
            ((trunc (t / s.frequency⁻¹)):ℝ) * (2 * Real.pi) from by
      field_simp
      ring]
    rw [Real.cos_sub_int_mul_two_pi]
    exact mul_comm _ _

/-- Witness for C5 at `Sinusoid(1,1,0)` and `t = 0`. -/
theorem sinusoid_sample_formula_witness :
    (Sinusoid.new 1 1 0).frequency ≠ 0 ∧
    (Sinusoid.new 1 1 0).sample 0 = (Sinusoid.new 1 1 0).amplitude *
      Real.cos (2 * Real.pi * (Sinusoid.new 1 1 0).frequency * 0 +
        (Sinusoid.new 1 1 0).phase) :=
  ⟨by norm_num [Sinusoid.new],
   (sinusoid_sample_formula (Sinusoid.new 1 1 0) 0
     (by norm_num [Sinusoid.new])).2⟩

end worthe_signals
